import Mathlib

/-!
Verification development for the coordination worker of `@ava/cooperate`
(`source/worker.ts`, client surface in `source/index.ts`).

The worker is a single-threaded message loop; each message handler mutates
per-context state (locks, reservations, semaphores) atomically.  We embed the
handlers as pure functions on explicit state.  JS numbers appearing as
semaphore values/amounts are embedded as `Int` (the client validates them to
be safe integers); the client-side validation layer, which must distinguish
fractional inputs, is embedded over `ℚ`.  Waking a queued waiter (calling its
`resolve`/`notify` callback) is embedded as returning the list of woken
entries.
-/

namespace Cooperate

/-- An entry of `Semaphore#queue` in `worker.ts`: `{id, amount, resolve}`.
The `resolve` callback is modelled by reporting woken entries as outputs. -/
structure QueueEntry where
  id : String
  amount : Int
deriving Repr, DecidableEq

/-- The `Semaphore` class of `worker.ts`: `initialValue` and `autoRelease`
are fixed at construction, `value` and `queue` are mutable state. -/
structure Semaphore where
  initialValue : Int
  autoRelease : Bool
  value : Int
  queue : List QueueEntry
deriving Repr, DecidableEq

/-- `new Semaphore(initialValue, autoRelease)`: sets `value = initialValue`
and an empty queue. -/
def Semaphore.mk0 (initialValue : Int) (autoRelease : Bool) : Semaphore :=
  { initialValue := initialValue, autoRelease := autoRelease,
    value := initialValue, queue := [] }

/-- `Semaphore#tryDown(amount)`: succeeds and decrements iff
`value >= amount`; never consults the queue (it may "barge"). -/
def Semaphore.tryDown (s : Semaphore) (amount : Int) : Bool × Semaphore :=
  if amount ≤ s.value then (true, { s with value := s.value - amount })
  else (false, s)

/-- Outcome of `Semaphore#down`: either the decrement happened synchronously
(`granted`), or the request was pushed onto the queue (`enqueued`). -/
inductive DownResult where
  | granted (s : Semaphore)
  | enqueued (s : Semaphore)
deriving Repr, DecidableEq

/-- `Semaphore#down(amount, id, callback)`: if the queue is non-empty the
`tryDown` is not even attempted (short-circuit `||`); an unsatisfiable
request is appended at the tail of the queue. -/
def Semaphore.down (s : Semaphore) (amount : Int) (id : String) : DownResult :=
  if s.queue.length > 0 then
    .enqueued { s with queue := s.queue ++ [⟨id, amount⟩] }
  else
    match s.tryDown amount with
    | (true, s1) => .granted s1
    | (false, s1) => .enqueued { s1 with queue := s1.queue ++ [⟨id, amount⟩] }

/-- The `while` loop of `Semaphore#up`: while the queue head can be
`tryDown`-ed, shift it off and resolve it.  Returns the final value, the
remaining queue, and the woken entries in wake order. -/
def upLoop : Int → List QueueEntry → Int × List QueueEntry × List QueueEntry
  | v, [] => (v, [], [])
  | v, e :: q =>
    if e.amount ≤ v then
      let r := upLoop (v - e.amount) q
      (r.1, r.2.1, e :: r.2.2)
    else
      (v, e :: q, [])

/-- `Semaphore#up(amount)`: increment `value`, then grant queue heads in FIFO
order while they fit.  Second component: the entries woken, in order. -/
def Semaphore.up (s : Semaphore) (amount : Int) : Semaphore × List QueueEntry :=
  let r := upLoop (s.value + amount) s.queue
  ({ s with value := r.1, queue := r.2.1 }, r.2.2)

/-- Sum of requested amounts of a list of queue entries. -/
def entrySum (q : List QueueEntry) : Int :=
  (q.map (fun e => e.amount)).sum

/-- Replies the worker can send on a semaphore message.  The
`SEMAPHORE_CREATION_FAILED` reply carries the existing semaphore's
`initialValue` and `autoRelease` (`worker.ts` lines 214-218). -/
inductive Reply where
  | semaphoreSucceeded
  | semaphoreFailed
  | semaphoreCreationFailed (initialValue : Int) (autoRelease : Bool)
deriving Repr, DecidableEq

/-- `getSemaphore(contextId, id, initialValue, autoRelease)` restricted to a
single `(contextId, id)` slot: `existing` is the slot's current content.
Note the source compares only `initialValue` of an existing semaphore. -/
def getSemaphore (existing : Option Semaphore) (initialValue : Int)
    (autoRelease : Bool) : Bool × Semaphore :=
  match existing with
  | some s => (s.initialValue == initialValue, s)
  | none => (true, Semaphore.mk0 initialValue autoRelease)

/-- The `wait = false` path of `downSemaphore` in `worker.ts`: creation check
first, then a bare `tryDown`, replying `SEMAPHORE_SUCCEEDED` or
`SEMAPHORE_FAILED`.  Returns the reply and the slot's new content. -/
def downSemaphoreNoWait (existing : Option Semaphore) (initialValue : Int)
    (autoRelease : Bool) (amount : Int) : Reply × Semaphore :=
  let r := getSemaphore existing initialValue autoRelease
  if !r.1 then
    (.semaphoreCreationFailed r.2.initialValue r.2.autoRelease, r.2)
  else
    let t := r.2.tryDown amount
    if t.1 then (.semaphoreSucceeded, t.2) else (.semaphoreFailed, t.2)

/-- The `wait = true` path of `downSemaphore` up to the `semaphore.down`
call: creation check first (a mismatch replies `SEMAPHORE_CREATION_FAILED`
with the existing semaphore's parameters and returns before any queueing),
then `down` (which may enqueue). -/
def downSemaphoreWait (existing : Option Semaphore) (initialValue : Int)
    (autoRelease : Bool) (amount : Int) (clientId : String) :
    Except (Int × Bool) DownResult :=
  let r := getSemaphore existing initialValue autoRelease
  if !r.1 then .error (r.2.initialValue, r.2.autoRelease)
  else .ok (r.2.down amount clientId)

/-- `upSemaphore` in `worker.ts`: creation check, then `up`, then
`SEMAPHORE_SUCCEEDED`.  Also returns woken entries. -/
def upSemaphore (existing : Option Semaphore) (initialValue : Int)
    (autoRelease : Bool) (amount : Int) : Reply × Semaphore × List QueueEntry :=
  let r := getSemaphore existing initialValue autoRelease
  if !r.1 then
    (.semaphoreCreationFailed r.2.initialValue r.2.autoRelease, r.2, [])
  else
    let u := r.2.up amount
    (.semaphoreSucceeded, u.1, u.2)

/-- The teardown registered for a waiting `downSemaphore` (`worker.ts` lines
225-235): if the client disconnects with `acquired > 0` on an auto-release
semaphore, `up(acquired)`; when `clearQueue`, purge the client's queued
entries. -/
def semaphoreTeardown (s : Semaphore) (clientId : String) (acquired : Int)
    (autoRelease : Bool) (clearQueue : Bool) : Semaphore × List QueueEntry :=
  let r := if acquired > 0 && autoRelease then s.up acquired else (s, [])
  (if clearQueue then
    { r.1 with queue := r.1.queue.filter (fun e => e.id != clientId) }
   else r.1, r.2)

/-- The error thrown by the client for a failed non-waiting down
(`SemaphoreDownError` in `index.ts`): carries the semaphore id and amount. -/
structure SemaphoreDownError where
  semaphoreId : String
  amount : Int
deriving Repr, DecidableEq

/-- Client view of a non-waiting down (`downNow`/`acquireNow` reaching the
worker): a `SEMAPHORE_FAILED` reply becomes a `SemaphoreDownError` carrying
the semaphore id and the requested amount. -/
def clientDownNow (semaphoreId : String) (existing : Option Semaphore)
    (initialValue : Int) (autoRelease : Bool) (amount : Int) :
    Except SemaphoreDownError Semaphore :=
  let r := downSemaphoreNoWait existing initialValue autoRelease amount
  match r.1 with
  | .semaphoreFailed => .error ⟨semaphoreId, amount⟩
  | _ => .ok r.2

/-- State of one granted managed acquisition: the client-side closure
variable `amount` (remaining releasable), the worker-side `acquired`
counter, and the semaphore. -/
structure ManagedAcq where
  remaining : Int
  acquired : Int
  sem : Semaphore
deriving Repr, DecidableEq

/-- One call of the release handle returned by `ManagedSemaphore#acquire`
combined with the worker's handling of the resulting `SEMAPHORE_RELEASE`
message (`index.ts` lines 108-118, `worker.ts` lines 245-259).  The client
rejects `r < 0` or `r > remaining` with a `RangeError` and sends nothing;
otherwise the worker ups by `min(acquired, r)` when `acquired > 0`. -/
def releaseStep (st : ManagedAcq) (r : Int) :
    Except Unit (ManagedAcq × List QueueEntry) :=
  if r < 0 ∨ st.remaining < r then .error ()
  else if st.acquired > 0 then
    let u := st.sem.up (min st.acquired r)
    .ok ({ remaining := st.remaining - r, acquired := st.acquired - r,
           sem := u.1 }, u.2)
  else
    .ok ({ st with remaining := st.remaining - r }, [])

/-- Run a sequence of release-handle calls; a rejected call leaves the state
unchanged (the client observes the `RangeError`, nothing is sent). -/
def runReleases (st : ManagedAcq) : List Int → ManagedAcq
  | [] => st
  | r :: rs =>
    match releaseStep st r with
    | .ok p => runReleases p.1 rs
    | .error _ => runReleases st rs

/-- A lock table entry (`worker.ts` line 35): current holder plus the FIFO
waiting list.  A waiter's `notify` callback is modelled by reporting the
woken client id. -/
structure LockEntry where
  holderId : String
  waiting : List String
deriving Repr, DecidableEq

/-- The teardown registered by `acquireLock` (`worker.ts` lines 55-86), also
run on an explicit `LOCK_RELEASE`.  Returns the slot's new content (`none`
means the entry was deleted) and the woken waiter, if any.  A non-holder is
filtered out of `waiting`; a holder with waiters transfers to the head. -/
def lockTeardown (e : LockEntry) (clientId : String) :
    Option LockEntry × Option String :=
  if e.holderId != clientId then
    (some { e with waiting := e.waiting.filter (fun w => w != clientId) }, none)
  else
    match e.waiting with
    | [] => (none, none)
    | next :: rest => (some ⟨next, rest⟩, some next)

/-- Replies of the lock handler. -/
inductive LockReply where
  | lockAcquired
  | lockFailed
  | pending
deriving Repr, DecidableEq

/-- `acquireLock` (`worker.ts` lines 88-122) on one lock slot: no entry means
immediate grant; with an entry and `wait = false` the teardown runs and the
reply is `LOCK_FAILED`; with `wait = true` the client is appended to the tail
of `waiting` and the reply stays pending.  The existence check does not look
at the holder's identity. -/
def acquireLock (entry : Option LockEntry) (clientId : String) (wait : Bool) :
    Option LockEntry × LockReply :=
  match entry with
  | none => (some ⟨clientId, []⟩, .lockAcquired)
  | some e =>
    if !wait then
      ((lockTeardown e clientId).1, .lockFailed)
    else
      (some { e with waiting := e.waiting ++ [clientId] }, .pending)

/-- `reserve` (`worker.ts` lines 124-143) on one context's reservation set,
values generalized over any type with decidable equality (the source allows
bigints, numbers and strings).  Walks the values in input order; a value not
yet in the set is added and its index recorded.  Returns the claimed indexes
(in input order) and the new set (as a membership list). -/
def reserveGo [DecidableEq α] : List α → Nat → List α → List Nat × List α
  | [], _, reserved => ([], reserved)
  | v :: vs, i, reserved =>
    if v ∈ reserved then reserveGo vs (i + 1) reserved
    else
      let r := reserveGo vs (i + 1) (v :: reserved)
      (i :: r.1, r.2)

/-- `reserve` applied to a whole message: indexes start at 0. -/
def reserve [DecidableEq α] (reserved : List α) (values : List α) :
    List Nat × List α :=
  reserveGo values 0 reserved

/-- `Number.isSafeInteger` on a rational embedding of JS numbers: integral
with absolute value at most `2^53 - 1`. -/
def isSafeInteger (q : ℚ) : Bool :=
  q.den == 1 && q.num.natAbs ≤ 2 ^ 53 - 1

/-- Client-side validation of `initialValue` shared by the
`ManagedSemaphore` and `UnmanagedSemaphore` constructors (`index.ts` lines
92-94 and 152-154): rejects negative or non-safe-integer values. -/
def validateInitialValue (q : ℚ) : Except Unit Unit :=
  if q < 0 ∨ ¬ isSafeInteger q then .error () else .ok ()

/-- Client-side validation of `amount` in `acquire`, `acquireNow`, `down`,
`downNow` and `up` (`index.ts` lines 100-102, 122-124, 160-162, 171-173,
182-184): rejects negative or non-safe-integer amounts, otherwise the amount
is sent to the authority. -/
def validateAmount (q : ℚ) : Except Unit ℚ :=
  if q < 0 ∨ ¬ isSafeInteger q then .error () else .ok q

/-- The release handle returned by `ManagedSemaphore#acquire` (`index.ts`
lines 108-117): rejects negative, non-safe-integer, or over-remaining
amounts; otherwise the amount is sent. -/
def acquireReleaseHandle (remaining : ℚ) (r : ℚ) : Except Unit ℚ :=
  if r < 0 ∨ ¬ isSafeInteger r ∨ remaining < r then .error () else .ok r

/-- The release handle returned by `ManagedSemaphore#acquireNow` (`index.ts`
lines 130-139): rejects only negative or over-remaining amounts — there is
no integrality check on this path. -/
def acquireNowReleaseHandle (remaining : ℚ) (r : ℚ) : Except Unit ℚ :=
  if r < 0 ∨ remaining < r then .error () else .ok r

/-- Whether a client call passed validation, i.e. a message is sent to the
authority (`.ok`), as opposed to a synchronous `RangeError` (`.error`). -/
def sendsMessage : Except Unit β → Bool
  | .ok _ => true
  | .error _ => false

/-- The three operations the worker can apply to one semaphore. -/
inductive SemOp where
  | tryDown (amount : Int)
  | down (amount : Int) (id : String)
  | up (amount : Int)
deriving Repr, DecidableEq

/-- The amount carried by an operation. -/
def SemOp.amount : SemOp → Int
  | .tryDown a => a
  | .down a _ => a
  | .up a => a

/-- One operation applied to a semaphore; besides the new state, returns
(total upped, total granted) deltas: a successful `tryDown` or an
immediately granted `down` grants its amount, and an `up` additionally
grants the amounts of the entries it wakes. -/
def stepOp (s : Semaphore) : SemOp → Semaphore × Int × Int
  | .tryDown a =>
    let t := s.tryDown a
    (t.2, 0, if t.1 then a else 0)
  | .down a id =>
    match s.down a id with
    | .granted s1 => (s1, 0, a)
    | .enqueued s1 => (s1, 0, 0)
  | .up a =>
    let u := s.up a
    (u.1, a, entrySum u.2)

/-- Run a list of operations, accumulating upped and granted totals. -/
def runOps (s : Semaphore) : List SemOp → Semaphore × Int × Int
  | [] => (s, 0, 0)
  | op :: ops =>
    let r := stepOp s op
    let rest := runOps r.1 ops
    (rest.1, r.2.1 + rest.2.1, r.2.2 + rest.2.2)

/-- A sequence of release amounts each of which the client-side handle
accepts: non-negative and at most the remaining outstanding amount. -/
def validSeq : Int → List Int → Bool
  | _, [] => true
  | rem, r :: rs => !(r < 0) && !(rem < r) && validSeq (rem - r) rs

/-- The non-integral JS number 0.5 as a rational. -/
def halfQ : ℚ := ⟨1, 2, by decide, by decide⟩

/-- Concrete semaphore used to instantiate theorems: value 0, three waiters
queued by clients "a", "c" and "b". -/
def wSem : Semaphore :=
  ⟨0, true, 0, [⟨"a", 1⟩, ⟨"c", 1⟩, ⟨"b", 5⟩]⟩

/-- Concrete managed semaphore at value 3 with an empty queue. -/
def wSem3 : Semaphore := ⟨3, true, 3, []⟩

/-- Concrete operation trace used to instantiate theorems. -/
def wOps : List SemOp := [.up 2, .down 1 "c", .tryDown 5, .up 1]

lemma entrySum_nil : entrySum [] = 0 := rfl

lemma entrySum_cons (e : QueueEntry) (q : List QueueEntry) :
    entrySum (e :: q) = e.amount + entrySum q := by
  simp [entrySum]

/-- Full characterization of the `up` wake loop: it grants exactly a prefix
`take k` of the queue, each granted head fitting the running value at its
turn, and stops at the first head that does not fit. -/
lemma upLoop_spec (q : List QueueEntry) : ∀ v : Int,
    ∃ k, k ≤ q.length ∧
      upLoop v q = (v - entrySum (q.take k), q.drop k, q.take k) ∧
      (∀ i, i < k → ∀ h : i < q.length,
        (q.get ⟨i, h⟩).amount ≤ v - entrySum (q.take i)) ∧
      (∀ e rest, q.drop k = e :: rest → v - entrySum (q.take k) < e.amount) := by
  induction q with
  | nil =>
    intro v
    exact ⟨0, Nat.le_refl _, by simp [upLoop, entrySum], by omega,
      by intro e rest h; simp at h⟩
  | cons e q ih =>
    intro v
    by_cases he : e.amount ≤ v
    · obtain ⟨k, hk, heq, hstep, hblock⟩ := ih (v - e.amount)
      refine ⟨k + 1, by simpa using hk, ?_, ?_, ?_⟩
      · rw [upLoop, if_pos he, heq]
        simp only [List.take_succ_cons, List.drop_succ_cons, entrySum_cons]
        refine Prod.ext ?_ rfl
        simp only
        omega
      · intro i hi h
        match i with
        | 0 => simpa [entrySum] using he
        | j + 1 =>
          have hj : j < k := by omega
          have h2 : j < q.length := by simpa using h
          have hs := hstep j hj h2
          simp only [List.get_cons_succ, List.take_succ_cons, entrySum_cons]
          omega
      · intro f rest hdrop
        simp only [List.drop_succ_cons] at hdrop
        have hb := hblock f rest hdrop
        simp only [List.take_succ_cons, entrySum_cons]
        omega
    · refine ⟨0, Nat.zero_le _, ?_, by omega, ?_⟩
      · rw [upLoop, if_neg he]
        simp [entrySum]
      · intro f rest hdrop
        simp only [List.drop_zero] at hdrop
        cases hdrop
        simpa [entrySum] using not_le.mp he

/-- The wake loop never drives the value negative. -/
lemma upLoop_nonneg (q : List QueueEntry) : ∀ v : Int,
    0 ≤ v → 0 ≤ (upLoop v q).1 := by
  induction q with
  | nil => intro v hv; simpa [upLoop] using hv
  | cons e q ih =>
    intro v hv
    by_cases he : e.amount ≤ v
    · rw [upLoop, if_pos he]
      exact ih (v - e.amount) (by omega)
    · rw [upLoop, if_neg he]
      exact hv

/-- `Semaphore.up` characterized via `upLoop_spec`: shared by several
theorems below. -/
lemma up_spec (s : Semaphore) (a : Int) :
    ∃ k, k ≤ s.queue.length ∧
      (s.up a).2 = s.queue.take k ∧
      (s.up a).1.queue = s.queue.drop k ∧
      (s.up a).1.value = s.value + a - entrySum (s.queue.take k) ∧
      (s.up a).1.initialValue = s.initialValue ∧
      (s.up a).1.autoRelease = s.autoRelease ∧
      (∀ i, i < k → ∀ h : i < s.queue.length,
        (s.queue.get ⟨i, h⟩).amount ≤ s.value + a - entrySum (s.queue.take i)) ∧
      (∀ e rest, (s.up a).1.queue = e :: rest → (s.up a).1.value < e.amount) := by
  obtain ⟨k, hk, heq, hstep, hblock⟩ := upLoop_spec s.queue (s.value + a)
  refine ⟨k, hk, ?_, ?_, ?_, rfl, rfl, hstep, ?_⟩
  · show (upLoop (s.value + a) s.queue).2.2 = _
    rw [heq]
  · show (upLoop (s.value + a) s.queue).2.1 = _
    rw [heq]
  · show (upLoop (s.value + a) s.queue).1 = _
    rw [heq]
  · intro e rest h
    have h2 : s.queue.drop k = e :: rest := by
      have : (s.up a).1.queue = s.queue.drop k := by
        show (upLoop (s.value + a) s.queue).2.1 = _
        rw [heq]
      rwa [this] at h
    have hb := hblock e rest h2
    have hv : (s.up a).1.value = s.value + a - entrySum (s.queue.take k) := by
      show (upLoop (s.value + a) s.queue).1 = _
      rw [heq]
    omega

/-- C1: `up(amount)` first increments `currentValue` by `amount`, then grants
queued requests strictly from the head: the woken entries are exactly a
prefix `take k` of the queue (in FIFO order), each satisfied by `tryDown` at
its turn, the final value is the incremented value minus the granted
amounts, and whenever a queue remains its head's amount exceeds the final
value — so an unsatisfiable head blocks every request behind it (the
remaining queue is the untouched suffix `drop k`, regardless of whether
later amounts would individually fit). -/
theorem up_fifo_wakeup (s : Semaphore) (a : Int) :
    ∃ k, k ≤ s.queue.length ∧
      (s.up a).2 = s.queue.take k ∧
      (s.up a).1.queue = s.queue.drop k ∧
      (s.up a).1.value = s.value + a - entrySum (s.queue.take k) ∧
      (s.up a).1.initialValue = s.initialValue ∧
      (s.up a).1.autoRelease = s.autoRelease ∧
      (∀ i, i < k → ∀ h : i < s.queue.length,
        (s.queue.get ⟨i, h⟩).amount ≤ s.value + a - entrySum (s.queue.take i)) ∧
      (∀ e rest, (s.up a).1.queue = e :: rest → (s.up a).1.value < e.amount) :=
  up_spec s a

/-- C4: a non-waiting down succeeds, decrementing `value` by `amount`, iff
`value >= amount`, regardless of the queue (barging); otherwise it fails
with a `SemaphoreDownError` carrying the semaphore id and amount, leaving
the semaphore (value and queue) unchanged.  A waiting down is enqueued at
the tail iff the queue is non-empty or `tryDown` fails, and otherwise
succeeds immediately. -/
theorem down_semantics (s : Semaphore) (semId id : String) (a : Int) :
    (a ≤ s.value →
      clientDownNow semId (some s) s.initialValue s.autoRelease a =
        .ok { s with value := s.value - a }) ∧
    (s.value < a →
      clientDownNow semId (some s) s.initialValue s.autoRelease a =
        .error ⟨semId, a⟩ ∧
      (downSemaphoreNoWait (some s) s.initialValue s.autoRelease a).2 = s) ∧
    ((s.queue ≠ [] ∨ s.value < a) ↔
      s.down a id = .enqueued { s with queue := s.queue ++ [⟨id, a⟩] }) ∧
    (s.queue = [] ∧ a ≤ s.value →
      s.down a id = .granted { s with value := s.value - a }) := by
  refine ⟨?_, ?_, ?_, ?_⟩
  · intro h
    simp [clientDownNow, downSemaphoreNoWait, getSemaphore, Semaphore.tryDown,
      if_pos h]
  · intro h
    constructor
    · simp [clientDownNow, downSemaphoreNoWait, getSemaphore, Semaphore.tryDown,
        if_neg (not_le.mpr h)]
    · simp [downSemaphoreNoWait, getSemaphore, Semaphore.tryDown,
        if_neg (not_le.mpr h)]
  · constructor
    · intro h
      rcases h with hq | hv
      · have hl : s.queue.length > 0 := by
          cases hq2 : s.queue with
          | nil => exact absurd hq2 hq
          | cons x xs => simp [hq2]
        simp [Semaphore.down, if_pos hl]
      · by_cases hq : s.queue.length > 0
        · simp [Semaphore.down, if_pos hq]
        · have hq0 : s.queue = [] := by
            cases hq2 : s.queue with
            | nil => rfl
            | cons x xs => exact absurd (by simp [hq2]) hq
          simp [Semaphore.down, hq0, Semaphore.tryDown, if_neg (not_le.mpr hv)]
    · intro h
      by_contra hcon
      push_neg at hcon
      obtain ⟨hq, hv⟩ := hcon
      simp [Semaphore.down, hq, Semaphore.tryDown, if_pos hv] at h
  · rintro ⟨hq, hv⟩
    simp [Semaphore.down, hq, Semaphore.tryDown, if_pos hv]

/-- C2 counterexample: a subsequent call for an existing semaphore with the
same `initialValue` but a *different* flavor (managed first, unmanaged
second) is not rejected: `getSemaphore` compares only `initialValue`, so the
call succeeds instead of failing with a creation mismatch. -/
theorem flavor_mismatch_not_detected :
    (getSemaphore (some (Semaphore.mk0 1 true)) 1 false).1 = true ∧
    (downSemaphoreNoWait (some (Semaphore.mk0 1 true)) 1 false 1).1 =
      Reply.semaphoreSucceeded ∧
    (upSemaphore (some (Semaphore.mk0 1 true)) 1 false 1).1 =
      Reply.semaphoreSucceeded := by
  refine ⟨rfl, rfl, ?_⟩
  simp [upSemaphore, getSemaphore, Semaphore.mk0, Semaphore.up, upLoop]

/-- C2 (amended): the first creation pins `initialValue` only.  A subsequent
down (waiting or not) or up with a different `initialValue` fails
immediately — before any `tryDown` or queueing — with a creation-mismatch
reply reporting the existing semaphore's `initialValue` and flavor, and
leaves the semaphore unchanged; a call with the pinned `initialValue` is not
rejected, even if its flavor differs from the first creation's. -/
theorem creation_mismatch_value_only (s : Semaphore) (iv a : Int) (ar : Bool)
    (c : String) :
    (iv ≠ s.initialValue →
      downSemaphoreNoWait (some s) iv ar a =
        (.semaphoreCreationFailed s.initialValue s.autoRelease, s) ∧
      downSemaphoreWait (some s) iv ar a c =
        .error (s.initialValue, s.autoRelease) ∧
      upSemaphore (some s) iv ar a =
        (.semaphoreCreationFailed s.initialValue s.autoRelease, s, [])) ∧
    (iv = s.initialValue →
      ((downSemaphoreNoWait (some s) iv ar a).1 = .semaphoreSucceeded ∨
        (downSemaphoreNoWait (some s) iv ar a).1 = .semaphoreFailed) ∧
      downSemaphoreWait (some s) iv ar a c = .ok (s.down a c) ∧
      (upSemaphore (some s) iv ar a).1 = .semaphoreSucceeded) := by
  constructor
  · intro h
    have hbe : (s.initialValue == iv) = false := by
      simp [Ne.symm h]
    refine ⟨?_, ?_, ?_⟩ <;>
      simp [downSemaphoreNoWait, downSemaphoreWait, upSemaphore, getSemaphore, hbe]
  · intro h
    have hbe : (s.initialValue == iv) = true := by simp [h]
    refine ⟨?_, ?_, ?_⟩
    · by_cases hv : a ≤ s.value <;>
        simp [downSemaphoreNoWait, getSemaphore, hbe, Semaphore.tryDown, hv]
    · simp [downSemaphoreWait, getSemaphore, hbe]
    · simp [upSemaphore, getSemaphore, hbe]

/-- C5: releasing by the current holder transfers the lock to the head of
the waiting list and wakes exactly that waiter when the list is non-empty,
and deletes the entry when the list is empty; a disconnect of a client that
is merely waiting wakes nobody and leaves the holder unchanged, removing
only that client's entries from the waiting list while keeping the other
waiters in their original relative order (the new list is an
order-preserving sublist of the old one). -/
theorem lock_release_transfer (e : LockEntry) (c w : String)
    (rest : List String) :
    (e.waiting = w :: rest →
      lockTeardown e e.holderId = (some ⟨w, rest⟩, some w)) ∧
    (e.waiting = [] → lockTeardown e e.holderId = (none, none)) ∧
    (c ≠ e.holderId →
      (lockTeardown e c).2 = none ∧
      ∃ e1, (lockTeardown e c).1 = some e1 ∧
        e1.holderId = e.holderId ∧
        e1.waiting = e.waiting.filter (fun x => x != c) ∧
        c ∉ e1.waiting ∧
        List.Sublist e1.waiting e.waiting) := by
  refine ⟨?_, ?_, ?_⟩
  · intro h
    simp [lockTeardown, h]
  · intro h
    simp [lockTeardown, h]
  · intro h
    have hne : (e.holderId != c) = true := by
      simp [bne]
      exact Ne.symm h
    refine ⟨by simp [lockTeardown, hne], ?_⟩
    refine ⟨⟨e.holderId, e.waiting.filter (fun x => x != c)⟩, ?_, rfl, rfl, ?_, ?_⟩
    · simp [lockTeardown, hne]
    · simp
    · exact List.filter_sublist _

/-- C10: the blocking acquire path checks only that a lock entry exists, not
who holds it: for any existing entry — in particular one held by the caller
itself — the caller is appended to the tail of the waiting list and no grant
is issued.  Concretely, a holder `c` that blocks on its own lock waits in
`waiting = [c]`, and is woken only when its first hold is released
(`lockTeardown` transfers the lock back to it). -/
theorem lock_not_reentrant (e : LockEntry) (c : String) :
    acquireLock (some e) c true =
      (some ⟨e.holderId, e.waiting ++ [c]⟩, .pending) ∧
    acquireLock (some ⟨c, []⟩) c true = (some ⟨c, [c]⟩, .pending) ∧
    lockTeardown ⟨c, [c]⟩ c = (some ⟨c, []⟩, some c) := by
  refine ⟨rfl, rfl, ?_⟩
  simp [lockTeardown]

/-- Membership in the reservation set after a `reserve` call: every value of
the message ends up in the set (claimed values are added, the rest were
already present). -/
lemma reserveGo_set_mem [DecidableEq α] :
    ∀ (vs res : List α) (i : Nat) (x : α),
      x ∈ (reserveGo vs i res).2 ↔ x ∈ res ∨ x ∈ vs := by
  intro vs
  induction vs with
  | nil => intro res i x; simp [reserveGo]
  | cons v vs ih =>
    intro res i x
    by_cases hv : v ∈ res
    · rw [reserveGo, if_pos hv, ih]
      simp only [List.mem_cons]
      constructor
      · rintro (hx | hx)
        · exact Or.inl hx
        · exact Or.inr (Or.inr hx)
      · rintro (hx | rfl | hx)
        · exact Or.inl hx
        · exact Or.inl hv
        · exact Or.inr hx
    · rw [reserveGo, if_neg hv]
      simp only
      rw [ih]
      simp only [List.mem_cons]
      tauto

/-- Index characterization of `reserveGo`: starting at offset `i`, index
`i + k` is claimed iff the `k`-th value is neither already reserved nor a
duplicate of an earlier value of the same message. -/
lemma reserveGo_idx_mem [DecidableEq α] :
    ∀ (vs res : List α) (i j : Nat),
      j ∈ (reserveGo vs i res).1 ↔
        ∃ k, ∃ h : k < vs.length, j = i + k ∧
          vs.get ⟨k, h⟩ ∉ res ∧ vs.get ⟨k, h⟩ ∉ vs.take k := by
  intro vs
  induction vs with
  | nil => intro res i j; simp [reserveGo]
  | cons v vs ih =>
    intro res i j
    by_cases hv : v ∈ res
    · rw [reserveGo, if_pos hv, ih]
      constructor
      · rintro ⟨k, h, rfl, hnotin, hnottake⟩
        refine ⟨k + 1, by simpa using Nat.succ_lt_succ h, by omega, ?_, ?_⟩
        · simpa using hnotin
        · simp only [List.get_cons_succ, List.take_succ_cons, List.mem_cons]
          push_neg
          exact ⟨fun heq => hnotin (heq ▸ hv), hnottake⟩
      · rintro ⟨k, h, rfl, hnotin, hnottake⟩
        match k with
        | 0 => exact absurd hv (by simpa using hnotin)
        | k + 1 =>
          refine ⟨k, by simpa using h, by omega, by simpa using hnotin, ?_⟩
          simp only [List.get_cons_succ, List.take_succ_cons, List.mem_cons] at hnottake
          push_neg at hnottake
          exact hnottake.2
    · rw [reserveGo, if_neg hv]
      simp only [List.mem_cons]
      constructor
      · rintro (rfl | hrest)
        · exact ⟨0, by simp, by omega, by simpa using hv, by simp⟩
        · rw [ih] at hrest
          obtain ⟨k, h, rfl, hnotin, hnottake⟩ := hrest
          have hne : vs.get ⟨k, h⟩ ≠ v := by
            intro heq
            exact hnotin (heq ▸ List.mem_cons_self v res)
          refine ⟨k + 1, by simpa using Nat.succ_lt_succ h, by omega, ?_, ?_⟩
          · simp only [List.get_cons_succ]
            intro hc
            exact hnotin (List.mem_cons_of_mem v hc)
          · simp only [List.get_cons_succ, List.take_succ_cons, List.mem_cons]
            push_neg
            exact ⟨hne, hnottake⟩
      · rintro ⟨k, h, rfl, hnotin, hnottake⟩
        match k with
        | 0 => left; omega
        | k + 1 =>
          right
          rw [ih]
          simp only [List.get_cons_succ, List.take_succ_cons, List.mem_cons] at hnotin hnottake
          push_neg at hnottake
          refine ⟨k, by simpa using h, by omega, ?_, hnottake.2⟩
          simp only [List.mem_cons]
          push_neg
          exact ⟨hnottake.1, hnotin⟩

/-- The claimed indexes come out strictly increasing, i.e. in input order,
and bounded below by the starting offset. -/
lemma reserveGo_idx_sorted [DecidableEq α] :
    ∀ (vs res : List α) (i : Nat),
      List.Pairwise (fun a b => a < b) (reserveGo vs i res).1 ∧
      ∀ j ∈ (reserveGo vs i res).1, i ≤ j := by
  intro vs
  induction vs with
  | nil => intro res i; simp [reserveGo]
  | cons v vs ih =>
    intro res i
    by_cases hv : v ∈ res
    · rw [reserveGo, if_pos hv]
      obtain ⟨hp, hb⟩ := ih res (i + 1)
      exact ⟨hp, fun j hj => by have := hb j hj; omega⟩
    · rw [reserveGo, if_neg hv]
      obtain ⟨hp, hb⟩ := ih (v :: res) (i + 1)
      simp only [List.pairwise_cons, List.mem_cons]
      refine ⟨⟨fun j hj => by have := hb j hj; omega, hp⟩, ?_⟩
      rintro j (rfl | hj)
      · omega
      · have := hb j hj; omega

/-- C7: a `reserve` call claims exactly those values that are neither in the
context's set nor duplicates of an earlier value in the same message, and
replies with their indexes in input order (strictly increasing); afterwards
every value of the message is in the set.  In particular a second `reserve`
of the same value in the same context returns an empty result, while two
contexts with independent sets each claim the value. -/
theorem reserve_claims [DecidableEq α] (res res1 res2 vs : List α) (v : α) :
    (∀ j, j ∈ (reserve res vs).1 ↔
      ∃ h : j < vs.length, vs.get ⟨j, h⟩ ∉ res ∧ vs.get ⟨j, h⟩ ∉ vs.take j) ∧
    List.Pairwise (fun a b => a < b) (reserve res vs).1 ∧
    (∀ x, x ∈ (reserve res vs).2 ↔ x ∈ res ∨ x ∈ vs) ∧
    (v ∉ res → reserve res [v] = ([0], v :: res)) ∧
    (v ∉ res → (reserve (reserve res [v]).2 [v]).1 = []) ∧
    (v ∉ res1 → v ∉ res2 →
      (reserve res1 [v]).1 = [0] ∧ (reserve res2 [v]).1 = [0]) := by
  refine ⟨?_, (reserveGo_idx_sorted vs res 0).1, fun x => reserveGo_set_mem vs res 0 x,
    ?_, ?_, ?_⟩
  · intro j
    rw [reserve, reserveGo_idx_mem]
    constructor
    · rintro ⟨k, h, rfl, hnotin, hnottake⟩
      exact ⟨by simpa using h, by simpa using hnotin, by simpa using hnottake⟩
    · rintro ⟨h, hnotin, hnottake⟩
      exact ⟨j, h, by omega, hnotin, hnottake⟩
  · intro hv
    simp [reserve, reserveGo, hv]
  · intro hv
    simp [reserve, reserveGo, hv]
  · intro h1 h2
    exact ⟨by simp [reserve, reserveGo, h1], by simp [reserve, reserveGo, h2]⟩

/-- One operation preserves non-negativity of `value` and the accounting
`value = old value + upped - granted`. -/
lemma stepOp_inv (s : Semaphore) (op : SemOp) (hv : 0 ≤ s.value)
    (ha : 0 ≤ op.amount) :
    0 ≤ (stepOp s op).1.value ∧
    (stepOp s op).1.value = s.value + (stepOp s op).2.1 - (stepOp s op).2.2 := by
  match op with
  | .tryDown a =>
    by_cases h : a ≤ s.value <;>
      simp [stepOp, Semaphore.tryDown, h] <;> omega
  | .down a id =>
    by_cases hq : s.queue.length > 0
    · simp [stepOp, Semaphore.down, hq]
      omega
    · by_cases h : a ≤ s.value <;>
        simp [stepOp, Semaphore.down, hq, Semaphore.tryDown, h] <;> omega
  | .up a =>
    have ha2 : (SemOp.up a).amount = a := rfl
    rw [ha2] at ha
    obtain ⟨k, _, hwoken, _, hval, _, _, _, _⟩ := up_spec s a
    constructor
    · show 0 ≤ (s.up a).1.value
      have : (s.up a).1.value = (upLoop (s.value + a) s.queue).1 := rfl
      rw [this]
      exact upLoop_nonneg s.queue (s.value + a) (by omega)
    · show (s.up a).1.value = s.value + a - entrySum (s.up a).2
      rw [hval, hwoken]

/-- Running any operation list preserves non-negativity and accounting. -/
lemma runOps_inv : ∀ (ops : List SemOp) (s : Semaphore), 0 ≤ s.value →
    (∀ op ∈ ops, 0 ≤ op.amount) →
    0 ≤ (runOps s ops).1.value ∧
    (runOps s ops).1.value =
      s.value + (runOps s ops).2.1 - (runOps s ops).2.2 := by
  intro ops
  induction ops with
  | nil => intro s hv _; simpa [runOps] using hv
  | cons op ops ih =>
    intro s hv hops
    obtain ⟨h1, h2⟩ := stepOp_inv s op hv (hops op (by simp))
    obtain ⟨h3, h4⟩ := ih (stepOp s op).1 h1 (fun o ho => hops o (by simp [ho]))
    rw [runOps]
    refine ⟨h3, ?_⟩
    simp only
    omega

/-- C6: starting from a freshly created semaphore with a non-negative
`initialValue`, any sequence of `tryDown`, `down` and `up` operations with
non-negative amounts keeps `currentValue` non-negative, and at its end (so,
the trace being arbitrary, at every observable instant) `currentValue`
equals `initialValue` plus the total upped minus the total granted
(counting successful `tryDown`s, immediately granted `down`s, and queue
entries woken by `up`). -/
theorem semaphore_value_invariant (iv : Int) (ar : Bool) (ops : List SemOp)
    (hiv : 0 ≤ iv) (hops : ∀ op ∈ ops, 0 ≤ op.amount) :
    0 ≤ (runOps (Semaphore.mk0 iv ar) ops).1.value ∧
    (runOps (Semaphore.mk0 iv ar) ops).1.value =
      iv + (runOps (Semaphore.mk0 iv ar) ops).2.1 -
        (runOps (Semaphore.mk0 iv ar) ops).2.2 :=
  runOps_inv ops (Semaphore.mk0 iv ar) hiv hops

/-- Witness for C6 at a concrete trace. -/
theorem semaphore_value_invariant_witness :
    0 ≤ (runOps (Semaphore.mk0 1 false) wOps).1.value ∧
    (runOps (Semaphore.mk0 1 false) wOps).1.value =
      1 + (runOps (Semaphore.mk0 1 false) wOps).2.1 -
        (runOps (Semaphore.mk0 1 false) wOps).2.2 :=
  semaphore_value_invariant 1 false wOps (by decide) (by decide)

/-- `up` on an empty queue just adds to the value and wakes nobody. -/
lemma up_empty (s : Semaphore) (a : Int) (h : s.queue = []) :
    s.up a = ({ s with value := s.value + a, queue := [] }, []) := by
  simp [Semaphore.up, h, upLoop]

/-- Valid release sequences preserve the link between the client-side
`remaining`, the worker-side `acquired` and the semaphore value. -/
lemma runReleases_inv : ∀ (rs : List Int) (st : ManagedAcq),
    st.remaining = st.acquired → 0 ≤ st.acquired → st.sem.queue = [] →
    validSeq st.remaining rs = true →
    (runReleases st rs).remaining = st.remaining - rs.sum ∧
    (runReleases st rs).acquired = (runReleases st rs).remaining ∧
    (runReleases st rs).sem.queue = [] ∧
    (runReleases st rs).sem.value = st.sem.value + rs.sum := by
  intro rs
  induction rs with
  | nil =>
    intro st h1 h2 h3 _
    simp [runReleases, h1.symm, h3]
  | cons r rs ih =>
    intro st h1 h2 h3 hvalid
    rw [validSeq] at hvalid
    simp only [Bool.and_eq_true, Bool.not_eq_true] at hvalid
    obtain ⟨⟨hb0, hbrem⟩, hrest⟩ := hvalid
    simp only [Bool.not_eq_true', decide_eq_false_iff_not] at hb0 hbrem
    have hr0 : 0 ≤ r := by omega
    have hrrem : r ≤ st.remaining := by omega
    rw [runReleases]
    by_cases hacq : st.acquired > 0
    · have hmin : min st.acquired r = r := by omega
      have hstep : releaseStep st r =
          .ok (⟨st.remaining - r, st.acquired - r,
            ({ st.sem with value := st.sem.value + r, queue := [] })⟩,
            []) := by
        rw [releaseStep, if_neg (by omega), if_pos hacq, hmin, up_empty st.sem r h3]
      rw [hstep]
      have hv2 : validSeq (st.remaining - r) rs = true := hrest
      obtain ⟨g1, g2, g3, g4⟩ := ih ⟨st.remaining - r, st.acquired - r,
        { st.sem with value := st.sem.value + r, queue := [] }⟩
        (by simp [h1]) (by simp; omega) (by simp) (by simpa using hv2)
      refine ⟨?_, g2, g3, ?_⟩
      · rw [g1]; simp; omega
      · rw [g4]; simp; omega
    · have hacq0 : st.acquired = 0 := by omega
      have hrem0 : st.remaining = 0 := by omega
      have hr : r = 0 := by omega
      have hstep : releaseStep st r =
          .ok ({ st with remaining := st.remaining - r }, []) := by
        rw [releaseStep, if_neg (by omega), if_neg hacq]
      rw [hstep]
      obtain ⟨g1, g2, g3, g4⟩ := ih { st with remaining := st.remaining - r }
        (by simp [h1, hr, hrem0, hacq0]) (by simpa using h2) (by simpa using h3)
        (by simpa [hrem0, hr] using hrest)
      refine ⟨?_, g2, g3, ?_⟩
      · rw [g1]; simp; omega
      · rw [g4]; simp; omega

/-- C3: acquiring `N` on a managed semaphore with an empty queue decrements
the value by `N`; any sequence of client-accepted partial releases (each
non-negative and at most the remaining outstanding amount) totalling `N`
brings the value back to its pre-acquire level with zero outstanding, after
which a further positive release is rejected with a `RangeError`, no message
is sent, and the state is unchanged. -/
theorem managed_release_cycle (s : Semaphore) (c : String) (N r1 : Int)
    (rs : List Int) (hq : s.queue = []) (h0 : 0 ≤ N) (hN : N ≤ s.value)
    (hvalid : validSeq N rs = true) (hsum : rs.sum = N) :
    s.down N c = .granted { s with value := s.value - N } ∧
    (runReleases ⟨N, N, { s with value := s.value - N }⟩ rs).sem.value =
      s.value ∧
    (runReleases ⟨N, N, { s with value := s.value - N }⟩ rs).remaining = 0 ∧
    (0 < r1 →
      releaseStep (runReleases ⟨N, N, { s with value := s.value - N }⟩ rs) r1 =
        .error () ∧
      runReleases (runReleases ⟨N, N, { s with value := s.value - N }⟩ rs)
        [r1] =
        runReleases ⟨N, N, { s with value := s.value - N }⟩ rs) := by
  obtain ⟨g1, g2, g3, g4⟩ := runReleases_inv rs
    ⟨N, N, { s with value := s.value - N }⟩ rfl h0 (by simpa using hq)
    (by simpa using hvalid)
  have hrem0 : (runReleases ⟨N, N, { s with value := s.value - N }⟩ rs).remaining
      = 0 := by
    rw [g1]; simp [hsum]
  refine ⟨?_, ?_, hrem0, ?_⟩
  · simp [Semaphore.down, hq, Semaphore.tryDown, if_pos hN]
  · rw [g4]
    show s.value - N + rs.sum = s.value
    rw [hsum]
    omega
  · intro hr1
    have herr : releaseStep
        (runReleases ⟨N, N, { s with value := s.value - N }⟩ rs) r1 =
        .error () := by
      rw [releaseStep, if_pos (by rw [hrem0]; omega)]
    refine ⟨herr, ?_⟩
    rw [runReleases, herr]
    rfl

/-- Witness for C3: acquire 3 from value 3, release 1 then 2, value back to
3 with zero outstanding; a further release of 1 is rejected. -/
theorem managed_release_cycle_witness :
    wSem3.down 3 "c" = .granted { wSem3 with value := wSem3.value - 3 } ∧
    (runReleases ⟨3, 3, { wSem3 with value := wSem3.value - 3 }⟩
      [1, 2]).sem.value = wSem3.value ∧
    (runReleases ⟨3, 3, { wSem3 with value := wSem3.value - 3 }⟩
      [1, 2]).remaining = 0 ∧
    (0 < (1:Int) →
      releaseStep (runReleases ⟨3, 3, { wSem3 with value := wSem3.value - 3 }⟩
        [1, 2]) 1 = .error () ∧
      runReleases (runReleases ⟨3, 3, { wSem3 with value := wSem3.value - 3 }⟩
        [1, 2]) [1] =
        runReleases ⟨3, 3, { wSem3 with value := wSem3.value - 3 }⟩ [1, 2]) :=
  managed_release_cycle wSem3 "c" 3 1 [1, 2] rfl (by decide) (by decide)
    (by decide) (by decide)

/-- C8: when a client with positive outstanding `acquired` on an
auto-release semaphore disconnects, the teardown ups the semaphore by the
full outstanding amount — waking a queue prefix exactly as `up` would — and
then purges every remaining queued entry of that client; the surviving
queue is an order-preserving sublist of the original queue (other clients'
relative order is undisturbed) containing no entry of the disconnected
client. -/
theorem disconnect_autorelease (s : Semaphore) (c : String) (acquired : Int)
    (hpos : 0 < acquired) :
    ∃ k, k ≤ s.queue.length ∧
      (semaphoreTeardown s c acquired true true).2 = s.queue.take k ∧
      (semaphoreTeardown s c acquired true true).1.queue =
        (s.queue.drop k).filter (fun e => e.id != c) ∧
      (semaphoreTeardown s c acquired true true).1.value =
        s.value + acquired - entrySum (s.queue.take k) ∧
      (∀ e ∈ (semaphoreTeardown s c acquired true true).1.queue, e.id ≠ c) ∧
      List.Sublist (semaphoreTeardown s c acquired true true).1.queue
        s.queue := by
  have hgate : semaphoreTeardown s c acquired true true =
      ({ (s.up acquired).1 with
          queue := (s.up acquired).1.queue.filter (fun e => e.id != c) },
        (s.up acquired).2) := by
    rw [semaphoreTeardown]
    simp [hpos]
  obtain ⟨k, hk, hwoken, hqueue, hval, _, _, _, _⟩ := up_spec s acquired
  refine ⟨k, hk, ?_, ?_, ?_, ?_, ?_⟩
  · rw [hgate]; exact hwoken
  · rw [hgate]; simp only
    rw [hqueue]
  · rw [hgate]; simp only
    exact hval
  · intro e he
    rw [hgate] at he
    simp only at he
    have := List.of_mem_filter he
    simpa using this
  · rw [hgate]
    simp only
    have h1 : List.Sublist
        ((s.up acquired).1.queue.filter (fun e => e.id != c))
        (s.up acquired).1.queue := List.filter_sublist _
    have h2 : List.Sublist (s.up acquired).1.queue s.queue := by
      rw [hqueue]
      exact List.drop_sublist k s.queue
    exact h1.trans h2

/-- Witness for C8: client "c" with outstanding 1 disconnects from `wSem`;
the up wakes "a", and "c"'s queued entry is purged, leaving only "b". -/
theorem disconnect_autorelease_witness :
    ∃ k, k ≤ wSem.queue.length ∧
      (semaphoreTeardown wSem "c" 1 true true).2 = wSem.queue.take k ∧
      (semaphoreTeardown wSem "c" 1 true true).1.queue =
        (wSem.queue.drop k).filter (fun e => e.id != "c") ∧
      (semaphoreTeardown wSem "c" 1 true true).1.value =
        wSem.value + 1 - entrySum (wSem.queue.take k) ∧
      (∀ e ∈ (semaphoreTeardown wSem "c" 1 true true).1.queue, e.id ≠ "c") ∧
      List.Sublist (semaphoreTeardown wSem "c" 1 true true).1.queue
        wSem.queue :=
  disconnect_autorelease wSem "c" 1 (by decide)

lemma sendsMessage_ite (c : Prop) [Decidable c] (x : β) :
    sendsMessage (if c then (.error () : Except Unit β) else .ok x) =
      !decide c := by
  by_cases h : c <;> simp [h, sendsMessage]

/-- C9 counterexample: the release handle returned by
`ManagedSemaphore#acquireNow` accepts the non-integral amount `1/2` (with
remaining `1`) and sends the message, instead of raising a range violation —
unlike the handle returned by `acquire`, which rejects it. -/
theorem acquireNow_release_skips_integrality :
    acquireNowReleaseHandle 1 halfQ = .ok halfQ ∧
    isSafeInteger halfQ = false ∧
    acquireReleaseHandle 1 halfQ = .error () := by
  refine ⟨?_, by decide, ?_⟩
  · rw [acquireNowReleaseHandle, if_neg]
    push_neg
    exact ⟨by decide, by decide⟩
  · rw [acquireReleaseHandle, if_pos]
    right
    left
    decide

/-- C9 (amended): the semaphore constructors (managed and unmanaged share
the same check) and the amount-taking calls `acquire`, `acquireNow`, `down`,
`downNow` and `up` validate synchronously, before any message is sent: they
send iff the value is non-negative and a safe integer.  The release handle
returned by `acquire` additionally rejects amounts above the remaining
outstanding; the handle returned by `acquireNow` checks only the range
(non-negative and at most remaining) and not integrality. -/
theorem client_validation_spec (q rem r : ℚ) :
    (sendsMessage (validateInitialValue q) = true ↔
      0 ≤ q ∧ isSafeInteger q = true) ∧
    (sendsMessage (validateAmount q) = true ↔
      0 ≤ q ∧ isSafeInteger q = true) ∧
    (sendsMessage (acquireReleaseHandle rem r) = true ↔
      0 ≤ r ∧ isSafeInteger r = true ∧ r ≤ rem) ∧
    (sendsMessage (acquireNowReleaseHandle rem r) = true ↔
      0 ≤ r ∧ r ≤ rem) := by
  refine ⟨?_, ?_, ?_, ?_⟩
  · rw [validateInitialValue, sendsMessage_ite]
    simp [not_or, not_lt]
  · rw [validateAmount, sendsMessage_ite]
    simp [not_or, not_lt]
  · rw [acquireReleaseHandle, sendsMessage_ite]
    simp [not_or, not_lt]
  · rw [acquireNowReleaseHandle, sendsMessage_ite]
    simp [not_or, not_lt]

end Cooperate
